import Mathlib

set_option linter.unnecessarySeqFocus false

/-!
# Verification of the Tari key-manager and mnemonic codec

Shallow embedding of the `infrastructure/keymanager` crate:

* `common.rs`  — bit/byte codec (`uint_to_bits`, `bits_to_uint`,
  `bytes_to_bits`, `bits_to_bytes`);
* `mnemonic.rs` — mnemonic codec (`from_bytes`, `to_bytes`,
  `to_bytes_with_language`, word/index lookup, language autodetection);
* `keymanager.rs` — `KeyManager` (`derive_key`, `next_key`).

Bytes are modelled as `Nat` (a valid byte is `< 256`; the one place the
source casts `usize → u8`, the value is reduced modulo 256 exactly as the
cast does).  Bits are `Bool`.  The per-language 2048-entry word tables and
the external crypto crate (SHA-256, Ristretto scalars) are not part of the
source tree, so they are modelled from the spec as abstract data carrying
the spec's stated invariants.
-/

/-! ## Bit/byte codec (`common.rs`) -/

/-- Body of the loop in `uint_to_bits`: repeatedly pushes `v % 2 > 0` and
halves `v`, producing `bit_count` bits least-significant first (the source
reverses this list afterwards). -/
def lsb_bits : Nat → Nat → List Bool
  | _, 0 => []
  | v, n + 1 => decide (v % 2 > 0) :: lsb_bits (v / 2) n

/-- Value of a least-significant-first bit list (proof helper for relating
`bits_to_uint` to `lsb_bits`). -/
def lsb_value : List Bool → Nat
  | [] => 0
  | b :: bs => (if b then 1 else 0) + 2 * lsb_value bs

/-- Rust `uint_to_bits(value, bit_count)`: pushes the remainders mod 2 of
successive halvings (`bit_count` of them), then reverses, yielding the low
`bit_count` bits of `value` in big-endian order. -/
def uint_to_bits (value bit_count : Nat) : List Bool :=
  (lsb_bits value bit_count).reverse

/-- Rust `bits_to_uint(bits)`: `Σ bits[i] * 2^(len - i - 1)`, i.e. the
big-endian value of the bit list. -/
def bits_to_uint : List Bool → Nat
  | [] => 0
  | b :: bs => (if b then 1 else 0) * 2 ^ bs.length + bits_to_uint bs

/-- Rust `bytes_to_bits(bytes)`: concatenates `uint_to_bits(byte, 8)` for
each byte. -/
def bytes_to_bits (bytes : List Nat) : List Bool :=
  bytes.flatMap (fun b => uint_to_bits b 8)

/-- Loop body of `bits_to_bytes`, recursing on the iteration count
`bits.len() / 8` fixed before the loop; each step consumes one complete
8-bit group. -/
def bits_to_bytes_go : List Bool → Nat → List Nat
  | _, 0 => []
  | bits, k + 1 => bits_to_uint (bits.take 8) % 256 :: bits_to_bytes_go (bits.drop 8) k

/-- Rust `bits_to_bytes(bits)`: for each complete 8-bit group (leftover
bits beyond the last full group are dropped by the `len / 8` loop bound),
pushes `bits_to_uint(group) as u8`; the cast is the reduction mod 256. -/
def bits_to_bytes (bits : List Bool) : List Nat :=
  bits_to_bytes_go bits (bits.length / 8)

/-! ## Mnemonic codec (`mnemonic.rs`) -/

inductive MnemonicError where
  | LanguageUndefined
  | UnknownLanguage
  | WordNotFound
  | IndexOutOfBounds
deriving DecidableEq, Repr

inductive MnemonicLanguage where
  | ChineseSimplified
  | ChineseTraditional
  | English
  | French
  | Italian
  | Japanese
  | Korean
  | Spanish
deriving DecidableEq, Repr

/-- Rust `MnemonicLanguage::iterator()`: the fixed iteration order over all
defined languages (ordered by approximate number of speakers). -/
def MNEMONIC_LANGUAGES : List MnemonicLanguage :=
  [MnemonicLanguage.ChineseSimplified, MnemonicLanguage.ChineseTraditional,
   MnemonicLanguage.English, MnemonicLanguage.French, MnemonicLanguage.Italian,
   MnemonicLanguage.Japanese, MnemonicLanguage.Korean, MnemonicLanguage.Spanish]

/-- Modelled from the spec: the per-language word tables
(`MNEMONIC_*_WORDS` in `mnemonic_wordlists.rs`) are not part of the source
tree.  The spec fixes their invariants: for each language, an ordered
sequence of exactly 2048 unique words, sorted ascending by the comparison
used for lookup.  Words are modelled abstractly as natural numbers (the
codec only compares and searches words); the carried invariants are the
fixed length 2048 and duplicate-freedom.  Sortedness plus uniqueness is
what makes the source's `binary_search` return the unique position of the
word when present, so the lookup below is modelled as the position of the
word in the list. -/
structure Wordlists where
  list : MnemonicLanguage → List Nat
  length_eq : ∀ l, (list l).length = 2048
  nodup : ∀ l, (list l).Nodup

/-- Rust `find_mnemonic_index_from_word`: binary search of `word` in the
language's sorted word table, `Ok(position)` when found, otherwise
`WordNotFound`. -/
def find_mnemonic_index_from_word (W : Wordlists) (word : Nat)
    (language : MnemonicLanguage) : Except MnemonicError Nat :=
  if word ∈ W.list language then Except.ok ((W.list language).indexOf word)
  else Except.error MnemonicError.WordNotFound

/-- Rust `find_mnemonic_word_from_index`: guarded by
`index < MNEMONIC_ENGLISH_WORDS.len()` (the English table's length), then
indexes the selected language's table.  Under the registry invariant every
table has the same length 2048, so the guarded index is in range. -/
def find_mnemonic_word_from_index (W : Wordlists) (index : Nat)
    (language : MnemonicLanguage) : Except MnemonicError Nat :=
  if h : index < (W.list MnemonicLanguage.English).length then
    Except.ok ((W.list language).get
      ⟨index, by rw [W.length_eq]; rw [W.length_eq] at h; exact h⟩)
  else Except.error MnemonicError.IndexOutOfBounds

/-- Rust `MnemonicLanguage::from`: tries every language in the fixed
iteration order and returns the first whose word table contains the word,
`UnknownLanguage` when none does. -/
def MnemonicLanguage.fromWord (W : Wordlists) (mnemonic_word : Nat) :
    Except MnemonicError MnemonicLanguage :=
  match MNEMONIC_LANGUAGES.find?
      (fun language => (find_mnemonic_index_from_word W mnemonic_word language).isOk) with
  | some language => Except.ok language
  | none => Except.error MnemonicError.UnknownLanguage

/-- Loop body of `from_bytes`, recursing on the iteration count
`bits.len() / 11` fixed before the loop: each step converts one complete
11-bit group to its integer and looks the word up; the first failure
aborts with the error. -/
def words_of_bits_go (W : Wordlists) (language : MnemonicLanguage) :
    List Bool → Nat → Except MnemonicError (List Nat)
  | _, 0 => Except.ok []
  | bits, k + 1 =>
    match find_mnemonic_word_from_index W (bits_to_uint (bits.take 11)) language with
    | Except.ok mnemonic_word =>
      (words_of_bits_go W language (bits.drop 11) k).map (fun ws => mnemonic_word :: ws)
    | Except.error e => Except.error e

/-- Word-building loop of `from_bytes`: converts each complete 11-bit
group to a word via the `0..len / 11` loop; padding ensures no incomplete
group remains. -/
def words_of_bits (W : Wordlists) (language : MnemonicLanguage)
    (bits : List Bool) : Except MnemonicError (List Nat) :=
  words_of_bits_go W language bits (bits.length / 11)

/-- Padded bit length computed by `from_bytes`: the source evaluates
`(ceil(len as f32 / 11.0) * 11.0) as usize`, the least multiple of 11 that
is `≥ len`; modelled as the exact ceiling (the `f32` arithmetic is exact
for every bit length the codec can encounter). -/
def padded_size (n : Nat) : Nat := ((n + 10) / 11) * 11

/-- Rust `from_bytes`: expand the bytes to bits, zero-pad at the tail up to
the next multiple of 11 (`Vec::resize`), then map each 11-bit group to a
word. -/
def from_bytes (W : Wordlists) (bytes : List Nat) (language : MnemonicLanguage) :
    Except MnemonicError (List Nat) :=
  let bits := bytes_to_bits bytes
  let padded := bits ++ List.replicate (padded_size bits.length - bits.length) false
  words_of_bits W language padded

/-- Body of the bit-accumulating loop of `to_bytes_with_language`: each
word becomes the 11-bit expansion of its table index; the first lookup
failure aborts with the error. -/
def bits_of_words (W : Wordlists) (language : MnemonicLanguage) :
    List Nat → Except MnemonicError (List Bool)
  | [] => Except.ok []
  | mnemonic_word :: ws =>
    match find_mnemonic_index_from_word W mnemonic_word language with
    | Except.ok index =>
      (bits_of_words W language ws).map (fun rest => uint_to_bits index 11 ++ rest)
    | Except.error e => Except.error e

/-- Rust `to_bytes_with_language`: concatenate the 11-bit expansions of the
word indices and regroup into bytes. -/
def to_bytes_with_language (W : Wordlists) (mnemonic_seq : List Nat)
    (language : MnemonicLanguage) : Except MnemonicError (List Nat) :=
  (bits_of_words W language mnemonic_seq).map bits_to_bytes

/-- Rust `to_bytes`: reads `mnemonic_seq[0]` to autodetect the language,
then delegates to `to_bytes_with_language`.  The index expression
`&mnemonic_seq[0]` panics (out-of-bounds) on an empty sequence; the panic
is modelled as `none`, a normal return as `some`. -/
def to_bytes (W : Wordlists) (mnemonic_seq : List Nat) :
    Option (Except MnemonicError (List Nat)) :=
  match mnemonic_seq[0]? with
  | none => none
  | some w =>
    some (match MnemonicLanguage.fromWord W w with
      | Except.ok language => to_bytes_with_language W mnemonic_seq language
      | Except.error e => Except.error e)

/-! ## Key manager (`keymanager.rs`) -/

/-- Modelled from the spec: the crypto crate's `ByteArrayError` (a byte
string does not decode to a valid scalar) is not part of the source tree;
its distinctions are irrelevant here, so it is one opaque error value. -/
inductive ByteArrayError where
  | conversionFailed
deriving DecidableEq, Repr

/-- Modelled from the spec: the external hash and scalar capabilities
(`sha256` from the `sha2` crate, `RistrettoSecretKey::from_bytes` and
`to_hex` from the crypto crate) are not part of the source tree.  A secret
key is represented by its byte string (`List Nat`); `sha256` is an
arbitrary function on byte strings, `skFromBytes` a fallible conversion of
a digest to a scalar, and `toHex` the serialization of a scalar to the
byte string of its hex rendering. -/
structure CryptoModel where
  sha256 : List Nat → List Nat
  skFromBytes : List Nat → Except ByteArrayError (List Nat)
  toHex : List Nat → List Nat

/-- Byte string of `key_index.to_string()`: the ASCII decimal digits. -/
def decimalString (i : Nat) : List Nat := (Nat.toDigits 10 i).map Char.toNat

structure DerivedKey where
  k : List Nat
  key_index : Nat
deriving DecidableEq, Repr

structure KeyManager where
  master_key : List Nat
  branch_seed : String
  primary_key_index : Nat
deriving DecidableEq, Repr

/-- Rust `KeyManager::derive_key`: hashes `master_key.to_hex()` followed by
the decimal rendering of `key_index`, converts the digest to a scalar and
pairs it with the index; `branch_seed` and `primary_key_index` are not
read. -/
def derive_key (C : CryptoModel) (km : KeyManager) (key_index : Nat) :
    Except ByteArrayError DerivedKey :=
  match C.skFromBytes (C.sha256 (C.toHex km.master_key ++ decimalString key_index)) with
  | Except.ok k => Except.ok { k := k, key_index := key_index }
  | Except.error e => Except.error e

/-- Rust `KeyManager::next_key`: increments `primary_key_index` then
derives at the new counter value; the mutation of `self` is modelled by
returning the updated manager alongside the result. -/
def next_key (C : CryptoModel) (km : KeyManager) :
    KeyManager × Except ByteArrayError DerivedKey :=
  let km2 := { km with primary_key_index := km.primary_key_index + 1 }
  (km2, derive_key C km2 km2.primary_key_index)

/-! ## Concrete instances used for evaluation -/

/-- Concrete registry satisfying the spec invariants, used to evaluate the
codec on explicit inputs: word `i` of every table is `i` itself. -/
def rangeWordlists : Wordlists where
  list := fun _ => List.range 2048
  length_eq := fun _ => List.length_range 2048
  nodup := fun _ => List.nodup_range 2048

/-- Concrete crypto capability whose scalar conversion always succeeds. -/
def idCrypto : CryptoModel where
  sha256 := id
  skFromBytes := Except.ok
  toHex := id

/-- Concrete crypto capability whose scalar conversion always fails, used
to exercise the error paths. -/
def failCrypto : CryptoModel where
  sha256 := id
  skFromBytes := fun _ => Except.error ByteArrayError.conversionFailed
  toHex := id

/-- Position of a language in the fixed iteration order of
`MnemonicLanguage::iterator()` (the autodetection priority). -/
def langPriority : MnemonicLanguage → Nat
  | MnemonicLanguage.ChineseSimplified => 0
  | MnemonicLanguage.ChineseTraditional => 1
  | MnemonicLanguage.English => 2
  | MnemonicLanguage.French => 3
  | MnemonicLanguage.Italian => 4
  | MnemonicLanguage.Japanese => 5
  | MnemonicLanguage.Korean => 6
  | MnemonicLanguage.Spanish => 7

/-- Bytes the decode of an encode appends beyond the original input: the
tail padding of `padded_size` decodes to one zero byte when it reaches a
full 8-bit group and vanishes otherwise. -/
def paddingBytes (n : Nat) : List Nat :=
  if padded_size (8 * n) - 8 * n < 8 then [] else [0]

/-! ## Bit/byte codec lemmas -/

theorem lsb_bits_length (v n : Nat) : (lsb_bits v n).length = n := by
  induction n generalizing v with
  | zero => rfl
  | succ n ih => simp [lsb_bits, ih]

theorem uint_to_bits_length (v n : Nat) : (uint_to_bits v n).length = n := by
  simp [uint_to_bits, lsb_bits_length]

theorem lsb_value_lsb_bits (v n : Nat) : lsb_value (lsb_bits v n) = v % 2 ^ n := by
  induction n generalizing v with
  | zero => simp [lsb_bits, lsb_value, Nat.mod_one]
  | succ n ih =>
    simp only [lsb_bits, lsb_value, ih]
    have h1 : v % 2 ^ (n + 1) / 2 = v / 2 % 2 ^ n := by
      rw [pow_succ']; exact Nat.mod_mul_right_div_self v 2 (2 ^ n)
    have h2 : v % 2 ^ (n + 1) % 2 = v % 2 := by
      rw [pow_succ']; exact Nat.mod_mul_right_mod v 2 (2 ^ n)
    have h3 := Nat.div_add_mod (v % 2 ^ (n + 1)) 2
    have hb : (if decide (v % 2 > 0) = true then 1 else 0) = v % 2 := by
      rcases Nat.mod_two_eq_zero_or_one v with h | h <;> simp [h]
    omega

theorem lsb_bits_lsb_value (l : List Bool) : lsb_bits (lsb_value l) l.length = l := by
  induction l with
  | nil => rfl
  | cons b bs ih =>
    simp only [List.length_cons, lsb_bits, lsb_value]
    have htail : ((if b = true then 1 else 0) + 2 * lsb_value bs) / 2 = lsb_value bs := by
      cases b <;> simp <;> omega
    rw [htail, ih]
    have hhead : decide (((if b = true then 1 else 0) + 2 * lsb_value bs) % 2 > 0) = b := by
      cases b <;> simp [Nat.add_mul_mod_self_left]
    rw [hhead]

theorem lsb_value_append (xs : List Bool) (b : Bool) :
    lsb_value (xs ++ [b]) = lsb_value xs + (if b then 1 else 0) * 2 ^ xs.length := by
  induction xs with
  | nil => simp [lsb_value]
  | cons x xs ih =>
    rw [List.cons_append]
    simp only [lsb_value, List.length_cons]
    rw [ih, pow_succ]
    ring

theorem bits_to_uint_eq_lsb_value_reverse (l : List Bool) :
    bits_to_uint l = lsb_value l.reverse := by
  induction l with
  | nil => rfl
  | cons b bs ih =>
    simp only [bits_to_uint, List.reverse_cons, lsb_value_append, ih,
      List.length_reverse]
    ring

/-- Round trip one way: decoding the big-endian bits of `v` recovers
`v mod 2^n` (hence `v` itself when `v < 2^n`). -/
theorem bits_to_uint_uint_to_bits (v n : Nat) :
    bits_to_uint (uint_to_bits v n) = v % 2 ^ n := by
  rw [bits_to_uint_eq_lsb_value_reverse, uint_to_bits, List.reverse_reverse,
    lsb_value_lsb_bits]

/-- Round trip the other way: re-expanding the value of a bit list at its
own length reproduces the list. -/
theorem uint_to_bits_bits_to_uint (l : List Bool) :
    uint_to_bits (bits_to_uint l) l.length = l := by
  rw [bits_to_uint_eq_lsb_value_reverse, uint_to_bits, ← List.length_reverse,
    lsb_bits_lsb_value, List.reverse_reverse]

theorem bits_to_uint_lt (l : List Bool) : bits_to_uint l < 2 ^ l.length := by
  rw [bits_to_uint_eq_lsb_value_reverse, ← List.length_reverse]
  induction l.reverse with
  | nil => simp [lsb_value]
  | cons b bs ih =>
    simp only [lsb_value, List.length_cons, pow_succ]
    cases b <;> simp <;> omega

theorem bytes_to_bits_nil : bytes_to_bits [] = [] := rfl

theorem bytes_to_bits_cons (x : Nat) (xs : List Nat) :
    bytes_to_bits (x :: xs) = uint_to_bits x 8 ++ bytes_to_bits xs := by
  simp [bytes_to_bits]

theorem bytes_to_bits_length (bytes : List Nat) :
    (bytes_to_bits bytes).length = 8 * bytes.length := by
  induction bytes with
  | nil => rfl
  | cons x xs ih =>
    rw [bytes_to_bits_cons]
    simp only [List.length_append, uint_to_bits_length, List.length_cons, ih]
    ring

theorem bits_to_bytes_short (bits : List Bool) (h : bits.length < 8) :
    bits_to_bytes bits = [] := by
  rw [bits_to_bytes, Nat.div_eq_of_lt h]
  rfl

theorem bits_to_bytes_nil : bits_to_bytes [] = [] := by
  exact bits_to_bytes_short [] (by simp)

theorem bits_to_bytes_append8 (l r : List Bool) (h : l.length = 8) :
    bits_to_bytes (l ++ r) = bits_to_uint l % 256 :: bits_to_bytes r := by
  have hcount : (l ++ r).length / 8 = r.length / 8 + 1 := by
    simp only [List.length_append, h]
    omega
  rw [bits_to_bytes, hcount, bits_to_bytes_go]
  have htake : (l ++ r).take 8 = l := by
    rw [List.take_append_of_le_length (by omega), List.take_of_length_le (by omega)]
  have hdrop : (l ++ r).drop 8 = r := by
    rw [List.drop_append_of_le_length (by omega), List.drop_of_length_le (by omega)]
    simp
  rw [htake, hdrop, bits_to_bytes]

/-- Prepending the bit expansion of a valid byte to a bit stream prepends
that byte to the decoded byte stream. -/
theorem bits_to_bytes_byte_append (x : Nat) (hx : x < 256) (r : List Bool) :
    bits_to_bytes (uint_to_bits x 8 ++ r) = x :: bits_to_bytes r := by
  rw [bits_to_bytes_append8 _ _ (uint_to_bits_length x 8), bits_to_uint_uint_to_bits]
  have : x % 2 ^ 8 = x := Nat.mod_eq_of_lt (by omega)
  rw [this, Nat.mod_eq_of_lt hx]

/-- Decoding the bit expansion of a valid byte list followed by any tail
recovers the byte list followed by the decoded tail. -/
theorem bits_to_bytes_bytes_to_bits_append (b : List Nat) (hb : ∀ x ∈ b, x < 256)
    (r : List Bool) : bits_to_bytes (bytes_to_bits b ++ r) = b ++ bits_to_bytes r := by
  induction b with
  | nil => simp [bytes_to_bits_nil]
  | cons x xs ih =>
    rw [bytes_to_bits_cons, List.append_assoc,
      bits_to_bytes_byte_append x (hb x (by simp)) _,
      ih (fun y hy => hb y (by simp [hy]))]
    rfl

theorem bits_to_bytes_bytes_to_bits (b : List Nat) (hb : ∀ x ∈ b, x < 256) :
    bits_to_bytes (bytes_to_bits b) = b := by
  have := bits_to_bytes_bytes_to_bits_append b hb []
  simpa [bits_to_bytes_nil] using this

/-! ## Wordlist lookup lemmas -/

theorem find_word_ok (W : Wordlists) (idx : Nat) (L : MnemonicLanguage)
    (h : idx < 2048) :
    find_mnemonic_word_from_index W idx L =
      Except.ok ((W.list L).get ⟨idx, by rw [W.length_eq]; exact h⟩) := by
  rw [find_mnemonic_word_from_index, dif_pos (by rw [W.length_eq]; exact h)]

theorem find_index_get (W : Wordlists) (L : MnemonicLanguage) (idx : Nat)
    (h : idx < (W.list L).length) :
    find_mnemonic_index_from_word W ((W.list L).get ⟨idx, h⟩) L = Except.ok idx := by
  rw [find_mnemonic_index_from_word, if_pos (List.get_mem ..)]
  congr 1
  rw [List.get_eq_getElem]
  exact List.indexOf_getElem (W.nodup L) idx h

theorem find_index_isOk_iff_mem (W : Wordlists) (w : Nat) (L : MnemonicLanguage) :
    (find_mnemonic_index_from_word W w L).isOk = true ↔ w ∈ W.list L := by
  rw [find_mnemonic_index_from_word]
  by_cases h : w ∈ W.list L <;> simp [h, Except.isOk, Except.toBool]

/-! ## Encoding loop lemmas -/

theorem words_of_bits_go_ok (W : Wordlists) (L : MnemonicLanguage) :
    ∀ (k : Nat) (bits : List Bool), ∃ ws, words_of_bits_go W L bits k = Except.ok ws := by
  intro k
  induction k with
  | zero => intro bits; exact ⟨[], rfl⟩
  | succ k ih =>
    intro bits
    have hlt : bits_to_uint (bits.take 11) < 2048 := by
      have h1 := bits_to_uint_lt (bits.take 11)
      have h2 : (bits.take 11).length ≤ 11 := by
        simp [List.length_take]
      calc bits_to_uint (bits.take 11) < 2 ^ (bits.take 11).length := h1
        _ ≤ 2 ^ 11 := Nat.pow_le_pow_right (by omega) h2
        _ = 2048 := by norm_num
    obtain ⟨ws, hws⟩ := ih (bits.drop 11)
    refine ⟨(W.list L).get ⟨bits_to_uint (bits.take 11), by rw [W.length_eq]; exact hlt⟩ :: ws, ?_⟩
    rw [words_of_bits_go, find_word_ok W _ L hlt, hws]
    rfl

theorem words_of_bits_ok (W : Wordlists) (L : MnemonicLanguage) (bits : List Bool) :
    ∃ ws, words_of_bits W L bits = Except.ok ws :=
  words_of_bits_go_ok W L (bits.length / 11) bits

/-- Decoding inverts the word-building loop on bit lists whose length is an
exact multiple of 11. -/
theorem words_bits_roundtrip (W : Wordlists) (L : MnemonicLanguage) :
    ∀ (k : Nat) (bits : List Bool), bits.length = 11 * k →
      ∃ ws, words_of_bits W L bits = Except.ok ws ∧
        bits_of_words W L ws = Except.ok bits := by
  intro k
  induction k with
  | zero =>
    intro bits hlen
    have : bits = [] := List.eq_nil_of_length_eq_zero (by omega)
    subst this
    exact ⟨[], rfl, rfl⟩
  | succ k ih =>
    intro bits hlen
    have h11 : 11 ≤ bits.length := by omega
    have htake_len : (bits.take 11).length = 11 := by
      simp [List.length_take]
      omega
    have hdrop_len : (bits.drop 11).length = 11 * k := by
      simp [List.length_drop]
      omega
    set idx := bits_to_uint (bits.take 11) with hidx
    have hlt : idx < 2048 := by
      have h1 := bits_to_uint_lt (bits.take 11)
      rw [htake_len] at h1
      calc idx < 2 ^ 11 := h1
        _ = 2048 := by norm_num
    obtain ⟨ws', hgo', hback'⟩ := ih (bits.drop 11) hdrop_len
    have hgo'' : words_of_bits_go W L (bits.drop 11) k = Except.ok ws' := by
      have : (bits.drop 11).length / 11 = k := by rw [hdrop_len]; omega
      rw [words_of_bits, this] at hgo'
      exact hgo'
    have hcount : bits.length / 11 = k + 1 := by omega
    have hlt' : idx < (W.list L).length := by rw [W.length_eq]; exact hlt
    refine ⟨(W.list L).get ⟨idx, hlt'⟩ :: ws', ?_, ?_⟩
    · rw [words_of_bits, hcount, words_of_bits_go, ← hidx, find_word_ok W idx L hlt, hgo'']
      rfl
    · rw [bits_of_words, find_index_get W L idx hlt']
      have huint := uint_to_bits_bits_to_uint (bits.take 11)
      rw [htake_len] at huint
      dsimp only
      rw [hback', hidx, huint]
      simp [Except.map, List.take_append_drop]

/-! ## Padding and the full round trip -/

theorem from_bytes_def (W : Wordlists) (b : List Nat) (L : MnemonicLanguage) :
    from_bytes W b L = words_of_bits W L
      (bytes_to_bits b ++
        List.replicate (padded_size (8 * b.length) - 8 * b.length) false) := by
  rw [from_bytes, bytes_to_bits_length]

theorem bits_to_uint_replicate_false (p : Nat) :
    bits_to_uint (List.replicate p false) = 0 := by
  induction p with
  | zero => rfl
  | succ p ih => simp [List.replicate_succ, bits_to_uint, ih]

theorem bits_to_bytes_replicate_false (p : Nat) (hp : p < 16) :
    bits_to_bytes (List.replicate p false) = if p < 8 then [] else [0] := by
  by_cases h : p < 8
  · rw [if_pos h]
    exact bits_to_bytes_short _ (by simpa using h)
  · rw [if_neg h]
    have hsplit : List.replicate p false =
        List.replicate 8 false ++ List.replicate (p - 8) false := by
      rw [← List.replicate_add]
      congr 1
      omega
    rw [hsplit, bits_to_bytes_append8 _ _ (by simp), bits_to_uint_replicate_false,
      bits_to_bytes_short _ (by simp; omega)]

/-- Full round trip of the codec, for any registry and language: encoding
always succeeds, and decoding the resulting word sequence yields the
original bytes followed by the decoded tail padding (one zero byte when
the padding reaches a full 8-bit group, nothing otherwise). -/
theorem from_bytes_to_bytes_roundtrip (W : Wordlists) (b : List Nat)
    (L : MnemonicLanguage) (hb : ∀ x ∈ b, x < 256) :
    ∃ ws, from_bytes W b L = Except.ok ws ∧
      to_bytes_with_language W ws L = Except.ok (b ++ paddingBytes b.length) := by
  set n := b.length with hn
  set p := padded_size (8 * n) - 8 * n with hp
  have hp10 : p ≤ 10 := by rw [hp, padded_size]; omega
  have hpad_ge : 8 * n ≤ padded_size (8 * n) := by rw [padded_size]; omega
  have hlen : (bytes_to_bits b ++ List.replicate p false).length = 11 * ((8 * n + 10) / 11) := by
    simp [bytes_to_bits_length, List.length_replicate, ← hn]
    rw [hp, padded_size] at *
    omega
  obtain ⟨ws, hok, hback⟩ := words_bits_roundtrip W L ((8 * n + 10) / 11) _ hlen
  refine ⟨ws, ?_, ?_⟩
  · rw [from_bytes_def, ← hn, ← hp]
    exact hok
  · rw [to_bytes_with_language, hback]
    have hdec : bits_to_bytes (bytes_to_bits b ++ List.replicate p false) =
        b ++ bits_to_bytes (List.replicate p false) :=
      bits_to_bytes_bytes_to_bits_append b hb _
    rw [Except.map, hdec, bits_to_bytes_replicate_false p (by omega)]
    rw [paddingBytes, ← hp]

/-! ## Language autodetection lemmas -/

/-- A `find?` over a duplicate-free list returns exactly the element that
satisfies the predicate and is preceded by no other satisfying element. -/
theorem find?_first_characterization {α : Type} [DecidableEq α] (p : α → Bool) :
    ∀ (l : List α), l.Nodup → ∀ (a : α),
      (l.find? p = some a ↔
        a ∈ l ∧ p a = true ∧ ∀ b ∈ l, l.indexOf b < l.indexOf a → p b = false) := by
  intro l
  induction l with
  | nil => intro _ a; simp
  | cons x xs ih =>
    intro hnd a
    obtain ⟨hx, hnd'⟩ := List.nodup_cons.mp hnd
    by_cases hpx : p x = true
    · rw [List.find?_cons_of_pos _ hpx]
      constructor
      · intro h
        have hax : x = a := by injection h
        subst hax
        refine ⟨List.mem_cons_self x xs, hpx, ?_⟩
        intro b hb hlt
        rw [List.indexOf_cons_self] at hlt
        omega
      · rintro ⟨ha, hpa, hfirst⟩
        rcases List.mem_cons.mp ha with rfl | hmem
        · rfl
        · exfalso
          have hne : x ≠ a := fun hEq => hx (hEq ▸ hmem)
          have h2 : (x :: xs).indexOf a = (xs.indexOf a).succ :=
            List.indexOf_cons_ne xs hne
          have h0 : (x :: xs).indexOf x = 0 := List.indexOf_cons_self x xs
          have hfalse := hfirst x (List.mem_cons_self x xs) (by rw [h0, h2]; omega)
          rw [hpx] at hfalse
          exact Bool.noConfusion hfalse
    · rw [List.find?_cons_of_neg _ hpx, ih hnd' a]
      constructor
      · rintro ⟨ha, hpa, hfirst⟩
        have hne : x ≠ a := fun hEq => by subst hEq; exact hpx hpa
        refine ⟨List.mem_cons_of_mem _ ha, hpa, ?_⟩
        intro b hb hlt
        rcases List.mem_cons.mp hb with rfl | hbmem
        · exact Bool.eq_false_iff.mpr hpx
        · apply hfirst b hbmem
          have hbx : x ≠ b := fun hEq => hx (hEq ▸ hbmem)
          rw [List.indexOf_cons_ne xs hbx, List.indexOf_cons_ne xs hne] at hlt
          omega
      · rintro ⟨ha, hpa, hfirst⟩
        have hne : x ≠ a := fun hEq => by subst hEq; exact hpx hpa
        have ha' : a ∈ xs := by
          rcases List.mem_cons.mp ha with rfl | h
          · exact absurd rfl hne
          · exact h
        refine ⟨ha', hpa, ?_⟩
        intro b hb hlt
        apply hfirst b (List.mem_cons_of_mem _ hb)
        have hbx : x ≠ b := fun hEq => hx (hEq ▸ hb)
        rw [List.indexOf_cons_ne xs hbx, List.indexOf_cons_ne xs hne]
        omega

theorem mem_mnemonic_languages (l : MnemonicLanguage) : l ∈ MNEMONIC_LANGUAGES := by
  cases l <;> simp [MNEMONIC_LANGUAGES]

theorem nodup_mnemonic_languages : MNEMONIC_LANGUAGES.Nodup := by decide

theorem indexOf_mnemonic_languages (l : MnemonicLanguage) :
    MNEMONIC_LANGUAGES.indexOf l = langPriority l := by
  cases l <;> rfl

theorem fromWord_ok_iff (W : Wordlists) (w : Nat) (l : MnemonicLanguage) :
    MnemonicLanguage.fromWord W w = Except.ok l ↔
      MNEMONIC_LANGUAGES.find?
        (fun language => (find_mnemonic_index_from_word W w language).isOk) = some l := by
  unfold MnemonicLanguage.fromWord
  rcases hfind : MNEMONIC_LANGUAGES.find?
      (fun language => (find_mnemonic_index_from_word W w language).isOk) with _ | l0 <;>
    simp [hfind]

theorem fromWord_error_iff (W : Wordlists) (w : Nat) :
    MnemonicLanguage.fromWord W w = Except.error MnemonicError.UnknownLanguage ↔
      MNEMONIC_LANGUAGES.find?
        (fun language => (find_mnemonic_index_from_word W w language).isOk) = none := by
  unfold MnemonicLanguage.fromWord
  rcases hfind : MNEMONIC_LANGUAGES.find?
      (fun language => (find_mnemonic_index_from_word W w language).isOk) with _ | l0 <;>
    simp [hfind]

/-! ## Key-manager lemmas -/

theorem derive_key_eq_map (C : CryptoModel) (km : KeyManager) (i : Nat) :
    derive_key C km i =
      (C.skFromBytes (C.sha256 (C.toHex km.master_key ++ decimalString i))).map
        (fun k => { k := k, key_index := i }) := by
  unfold derive_key
  rcases C.skFromBytes (C.sha256 (C.toHex km.master_key ++ decimalString i)) with e | k <;> rfl

theorem derive_key_ok_key_index (C : CryptoModel) (km : KeyManager) (i : Nat)
    (d : DerivedKey) : derive_key C km i = Except.ok d → d.key_index = i := by
  unfold derive_key
  rcases C.skFromBytes (C.sha256 (C.toHex km.master_key ++ decimalString i)) with e | k
  · intro hcontra
    exact Except.noConfusion hcontra
  · intro hok
    injection hok with h2
    rw [← h2]

/-! ## Claims -/

/-- C1: `derive_key` is deterministic and equal to
`scalarFromBytes(sha256(hex(master_key) ++ decimalString(index)))` paired
with the index; `branch_seed` (and the counter) are not inputs to the
hash, so any two managers agreeing on `master_key` derive identical keys
at every index. -/
theorem derive_key_deterministic_and_branch_seed_not_hashed
    (C : CryptoModel) (km km2 : KeyManager) (i : Nat)
    (h : km.master_key = km2.master_key) :
    derive_key C km i = derive_key C km2 i ∧
    derive_key C km i =
      (C.skFromBytes (C.sha256 (C.toHex km.master_key ++ decimalString i))).map
        (fun k => { k := k, key_index := i }) := by
  refine ⟨?_, derive_key_eq_map C km i⟩
  rw [derive_key_eq_map C km i, derive_key_eq_map C km2 i, h]

/-- Witness for C1: two managers sharing a master key but with different
branch seeds and counters derive the same key at index 3. -/
theorem derive_key_deterministic_witness :
    (KeyManager.mk [1] "a" 0).master_key = (KeyManager.mk [1] "b" 7).master_key ∧
    (derive_key idCrypto (KeyManager.mk [1] "a" 0) 3 =
        derive_key idCrypto (KeyManager.mk [1] "b" 7) 3 ∧
      derive_key idCrypto (KeyManager.mk [1] "a" 0) 3 =
        (idCrypto.skFromBytes (idCrypto.sha256
            (idCrypto.toHex (KeyManager.mk [1] "a" 0).master_key ++ decimalString 3))).map
          (fun k => { k := k, key_index := 3 })) :=
  ⟨rfl, derive_key_deterministic_and_branch_seed_not_hashed idCrypto
    (KeyManager.mk [1] "a" 0) (KeyManager.mk [1] "b" 7) 3 rfl⟩

/-- C3: `next_key` increments the counter by exactly 1 and then returns
`derive_key` at the new counter value; from a fresh manager (counter 0)
two successive calls return `derive_key(1)` and `derive_key(2)`, whose key
indices (on success) are 1 and 2. -/
theorem next_key_increments_then_derives (C : CryptoModel) (km : KeyManager)
    (h : km.primary_key_index = 0) :
    (∀ km0 : KeyManager,
      (next_key C km0).1.primary_key_index = km0.primary_key_index + 1 ∧
      (next_key C km0).2 = derive_key C km0 (km0.primary_key_index + 1)) ∧
    (next_key C km).2 = derive_key C km 1 ∧
    (next_key C (next_key C km).1).2 = derive_key C km 2 ∧
    (∀ d, derive_key C km 1 = Except.ok d → d.key_index = 1) ∧
    (∀ d, derive_key C km 2 = Except.ok d → d.key_index = 2) := by
  refine ⟨fun km0 => ⟨rfl, rfl⟩, ?_, ?_,
    fun d => derive_key_ok_key_index C km 1 d, fun d => derive_key_ok_key_index C km 2 d⟩
  · have h1 : (next_key C km).2 = derive_key C km (km.primary_key_index + 1) := rfl
    rw [h1, h]
  · have h2 : (next_key C (next_key C km).1).2 =
        derive_key C km (km.primary_key_index + 1 + 1) := rfl
    rw [h2, h]

/-- Witness for C3 at a fresh concrete manager. -/
theorem next_key_increments_then_derives_witness :
    (KeyManager.mk [] "" 0).primary_key_index = 0 ∧
    ((next_key idCrypto (KeyManager.mk [] "" 0)).2 =
        derive_key idCrypto (KeyManager.mk [] "" 0) 1 ∧
      (next_key idCrypto (next_key idCrypto (KeyManager.mk [] "" 0)).1).2 =
        derive_key idCrypto (KeyManager.mk [] "" 0) 2) :=
  ⟨rfl, (next_key_increments_then_derives idCrypto (KeyManager.mk [] "" 0) rfl).2.1,
    (next_key_increments_then_derives idCrypto (KeyManager.mk [] "" 0) rfl).2.2.1⟩

/-- C5: the only state-mutating operation is `next_key` (in the source,
`derive_key` takes `&self`, so it is embedded without a state output, and
the fallible constructors build fresh state rather than mutating an
existing manager); when `next_key` returns an error, the master key and
branch seed are unchanged but `primary_key_index` has nevertheless been
incremented by 1 and is not rolled back. -/
theorem next_key_error_counter_not_rolled_back (C : CryptoModel)
    (km : KeyManager) (e : ByteArrayError)
    (_h : (next_key C km).2 = Except.error e) :
    (next_key C km).1.master_key = km.master_key ∧
    (next_key C km).1.branch_seed = km.branch_seed ∧
    (next_key C km).1.primary_key_index = km.primary_key_index + 1 :=
  ⟨rfl, rfl, rfl⟩

/-- Witness for C5 with a crypto capability whose scalar conversion always
fails: the failing `next_key` still advanced the counter. -/
theorem next_key_error_counter_witness :
    (next_key failCrypto (KeyManager.mk [2] "seed" 5)).2 =
      Except.error ByteArrayError.conversionFailed ∧
    ((next_key failCrypto (KeyManager.mk [2] "seed" 5)).1.master_key =
        (KeyManager.mk [2] "seed" 5).master_key ∧
      (next_key failCrypto (KeyManager.mk [2] "seed" 5)).1.branch_seed =
        (KeyManager.mk [2] "seed" 5).branch_seed ∧
      (next_key failCrypto (KeyManager.mk [2] "seed" 5)).1.primary_key_index =
        (KeyManager.mk [2] "seed" 5).primary_key_index + 1) :=
  ⟨rfl, next_key_error_counter_not_rolled_back failCrypto (KeyManager.mk [2] "seed" 5)
    ByteArrayError.conversionFailed rfl⟩

/-- C6: `from_bytes` never returns an error: every 11-bit group has value
below `2^11 = 2048`, the length of each word table, so the
`IndexOutOfBounds` branch of the word lookup is unreachable. -/
theorem from_bytes_never_index_out_of_bounds (W : Wordlists)
    (bytes : List Nat) (language : MnemonicLanguage) :
    ∃ ws, from_bytes W bytes language = Except.ok ws := by
  rw [from_bytes_def]
  exact words_of_bits_ok W language _

/-- C7: language autodetection returns the first language, in the fixed
iteration order (priority `langPriority`), whose word table contains the
probe word — an earlier-priority language wins for ambiguous words — and
returns `UnknownLanguage` exactly when no table contains the word. -/
theorem detect_language_first_match (W : Wordlists) (w : Nat) :
    (∀ l, MnemonicLanguage.fromWord W w = Except.ok l ↔
      w ∈ W.list l ∧ ∀ l2, langPriority l2 < langPriority l → w ∉ W.list l2) ∧
    (MnemonicLanguage.fromWord W w = Except.error MnemonicError.UnknownLanguage ↔
      ∀ l, w ∉ W.list l) := by
  constructor
  · intro l
    rw [fromWord_ok_iff,
      find?_first_characterization _ MNEMONIC_LANGUAGES nodup_mnemonic_languages l]
    constructor
    · rintro ⟨hmem, hpl, hfirst⟩
      refine ⟨(find_index_isOk_iff_mem W w l).mp hpl, ?_⟩
      intro l2 hlt hmem2
      have hfalse := hfirst l2 (mem_mnemonic_languages l2)
        (by rw [indexOf_mnemonic_languages, indexOf_mnemonic_languages]; exact hlt)
      have htrue := (find_index_isOk_iff_mem W w l2).mpr hmem2
      rw [hfalse] at htrue
      exact Bool.noConfusion htrue
    · rintro ⟨hmem, hnone⟩
      refine ⟨mem_mnemonic_languages l, (find_index_isOk_iff_mem W w l).mpr hmem, ?_⟩
      intro b hb hlt
      rw [indexOf_mnemonic_languages, indexOf_mnemonic_languages] at hlt
      exact Bool.eq_false_iff.mpr
        (fun htrue => hnone b hlt ((find_index_isOk_iff_mem W w b).mp htrue))
  · rw [fromWord_error_iff, List.find?_eq_none]
    constructor
    · intro h l hmem
      exact h l (mem_mnemonic_languages l) ((find_index_isOk_iff_mem W w l).mpr hmem)
    · intro h l _ htrue
      exact h l ((find_index_isOk_iff_mem W w l).mp htrue)

/-- C8: `bytes_to_bits` yields exactly `8 * len` bits (one byte expanding,
most-significant bit first, to the 8-bit big-endian group that
`bits_to_uint` re-evaluates to the byte), and `bits_to_bytes` inverts it
on any sequence of valid bytes. -/
theorem bytes_to_bits_length_and_inverse (b : List Nat) :
    (bytes_to_bits b).length = 8 * b.length ∧
    ((∀ x ∈ b, x < 256) → bits_to_bytes (bytes_to_bits b) = b) :=
  ⟨bytes_to_bits_length b, fun hb => bits_to_bytes_bytes_to_bits b hb⟩

/-- Witness for C8 on an explicit byte list. -/
theorem bytes_to_bits_length_and_inverse_witness :
    (∀ x ∈ [255, 0, 7], x < 256) ∧ bits_to_bytes (bytes_to_bits [255, 0, 7]) = [255, 0, 7] :=
  ⟨by decide, (bytes_to_bits_length_and_inverse [255, 0, 7]).2 (by decide)⟩

/-- C9: `uint_to_bits` returns exactly `width` bits, big-endian;
`bits_to_uint` recovers `value mod 2^width` — the exact value when it
fits, silent truncation of the high bits otherwise. -/
theorem uint_to_bits_width_and_value (v w : Nat) :
    (uint_to_bits v w).length = w ∧
    bits_to_uint (uint_to_bits v w) = v % 2 ^ w ∧
    (v < 2 ^ w → bits_to_uint (uint_to_bits v w) = v) :=
  ⟨uint_to_bits_length v w, bits_to_uint_uint_to_bits v w,
    fun h => by rw [bits_to_uint_uint_to_bits, Nat.mod_eq_of_lt h]⟩

/-- Witness for C9 at `v = 5`, `w = 3` (the fitting case) together with
the truncating case `v = 21 = 10101₂`, `w = 3`. -/
theorem uint_to_bits_width_and_value_witness :
    (5 < 2 ^ 3 ∧ bits_to_uint (uint_to_bits 5 3) = 5) ∧
    bits_to_uint (uint_to_bits 21 3) = 21 % 2 ^ 3 :=
  ⟨⟨by decide, (uint_to_bits_width_and_value 5 3).2.2 (by decide)⟩,
    (uint_to_bits_width_and_value 21 3).2.1⟩

/-- C10: the auto-detecting decode reads element 0 of the word sequence
unconditionally, so on the empty sequence it panics — modelled as `none` —
rather than returning a `MnemonicError`; on any nonempty sequence it
returns normally. -/
theorem to_bytes_empty_panics (W : Wordlists) :
    to_bytes W ([] : List Nat) = none ∧
    (∀ r : Except MnemonicError (List Nat), to_bytes W [] ≠ some r) ∧
    (∀ (w : Nat) (ws : List Nat), to_bytes W (w :: ws) ≠ none) := by
  refine ⟨rfl, ?_, ?_⟩
  · intro r hr
    rw [show to_bytes W ([] : List Nat) = none from rfl] at hr
    cases hr
  · intro w ws hcontra
    simp [to_bytes] at hcontra

/-- C2 counterexample: for the concrete registry and the 32-byte input of
all zeros, encoding to English words and decoding does NOT reproduce the
original 32 bytes (the decode yields 33 bytes: the input plus one zero
byte from the 8 padding bits). -/
theorem mnemonic_roundtrip32_counterexample :
    ¬ (Except.bind
        (from_bytes rangeWordlists (List.replicate 32 0) MnemonicLanguage.English)
        (fun ws => to_bytes_with_language rangeWordlists ws MnemonicLanguage.English) =
      Except.ok (List.replicate 32 0)) := by
  obtain ⟨ws, h1, h2⟩ := from_bytes_to_bytes_roundtrip rangeWordlists
    (List.replicate 32 0) MnemonicLanguage.English
    (fun x hx => by rw [List.eq_of_mem_replicate hx]; omega)
  intro hcontra
  rw [h1] at hcontra
  have hbind : Except.bind (Except.ok ws)
      (fun ws2 => to_bytes_with_language rangeWordlists ws2 MnemonicLanguage.English) =
      to_bytes_with_language rangeWordlists ws MnemonicLanguage.English := rfl
  rw [hbind, h2] at hcontra
  have hpad : paddingBytes (List.replicate 32 (0 : Nat)).length = [0] := by
    rw [List.length_replicate]
    decide
  rw [hpad] at hcontra
  injection hcontra with hc
  have hlen := congrArg List.length hc
  simp [List.length_append, List.length_replicate] at hlen

/-- C2 amended: for every registry and every 32-byte input, encoding to
words succeeds and decoding returns the original 32 bytes followed by
exactly one zero byte (the 8 zero-padding bits decode to a 33rd byte
`0x00`); the round trip is exact only up to this appended byte. -/
theorem mnemonic_roundtrip32_amended (W : Wordlists) (b : List Nat)
    (hlen : b.length = 32) (hb : ∀ x ∈ b, x < 256) :
    ∃ ws, from_bytes W b MnemonicLanguage.English = Except.ok ws ∧
      to_bytes_with_language W ws MnemonicLanguage.English = Except.ok (b ++ [0]) := by
  have h := from_bytes_to_bytes_roundtrip W b MnemonicLanguage.English hb
  rw [hlen] at h
  have hpad : paddingBytes 32 = [0] := by decide
  rw [hpad] at h
  exact h

/-- Witness for the amended C2 at the all-zero 32-byte input. -/
theorem mnemonic_roundtrip32_amended_witness :
    (List.replicate 32 (0 : Nat)).length = 32 ∧
    (∀ x ∈ List.replicate 32 (0 : Nat), x < 256) ∧
    ∃ ws, from_bytes rangeWordlists (List.replicate 32 0) MnemonicLanguage.English =
        Except.ok ws ∧
      to_bytes_with_language rangeWordlists ws MnemonicLanguage.English =
        Except.ok (List.replicate 32 0 ++ [0]) :=
  ⟨by decide, fun x hx => by rw [List.eq_of_mem_replicate hx]; omega,
    mnemonic_roundtrip32_amended rangeWordlists (List.replicate 32 0) (by decide)
      (fun x hx => by rw [List.eq_of_mem_replicate hx]; omega)⟩

/-- C4 counterexample: a 10-byte input gets exactly 8 padding bits — a
multiple of 8 — yet the decode of its encode is NOT the input: the 8
padding bits become one additional zero byte, so the claim's "equal
whenever the padding is a multiple of 8 bits" fails. -/
theorem decode_encode_padding_counterexample :
    (padded_size (8 * (List.replicate 10 (0 : Nat)).length) -
        8 * (List.replicate 10 (0 : Nat)).length) % 8 = 0 ∧
    ¬ (Except.bind
        (from_bytes rangeWordlists (List.replicate 10 0) MnemonicLanguage.English)
        (fun ws => to_bytes_with_language rangeWordlists ws MnemonicLanguage.English) =
      Except.ok (List.replicate 10 0)) := by
  constructor
  · rw [List.length_replicate]
    decide
  · obtain ⟨ws, h1, h2⟩ := from_bytes_to_bytes_roundtrip rangeWordlists
      (List.replicate 10 0) MnemonicLanguage.English
      (fun x hx => by rw [List.eq_of_mem_replicate hx]; omega)
    intro hcontra
    rw [h1] at hcontra
    have hbind : Except.bind (Except.ok ws)
        (fun ws2 => to_bytes_with_language rangeWordlists ws2 MnemonicLanguage.English) =
        to_bytes_with_language rangeWordlists ws MnemonicLanguage.English := rfl
    rw [hbind, h2] at hcontra
    have hpad : paddingBytes (List.replicate 10 (0 : Nat)).length = [0] := by
      rw [List.length_replicate]
      decide
    rw [hpad] at hcontra
    injection hcontra with hc
    have hlen := congrArg List.length hc
    simp [List.length_append, List.length_replicate] at hlen

/-- C4 amended: for every registry, byte sequence and language, decoding
the encoding succeeds and returns the input followed by the decoded tail
padding: nothing when the padding (to the next multiple of 11 bits) is
fewer than 8 bits — in particular the round trip is exact in that case,
including padding 0 — and exactly one zero byte when the padding is 8 or
more bits (it then contains one full 8-bit group). -/
theorem decode_encode_tail_characterization (W : Wordlists) (b : List Nat)
    (L : MnemonicLanguage) (hb : ∀ x ∈ b, x < 256) :
    ∃ ws, from_bytes W b L = Except.ok ws ∧
      to_bytes_with_language W ws L = Except.ok
        (b ++ (if padded_size (8 * b.length) - 8 * b.length < 8 then [] else [0])) := by
  have h := from_bytes_to_bytes_roundtrip W b L hb
  simp only [paddingBytes] at h
  exact h

/-- Witness for the amended C4 at a 1-byte input (3 padding bits, exact
round trip). -/
theorem decode_encode_tail_characterization_witness :
    (∀ x ∈ [(5 : Nat)], x < 256) ∧
    ∃ ws, from_bytes rangeWordlists [5] MnemonicLanguage.English = Except.ok ws ∧
      to_bytes_with_language rangeWordlists ws MnemonicLanguage.English = Except.ok
        ([5] ++ (if padded_size (8 * [(5 : Nat)].length) - 8 * [(5 : Nat)].length < 8
          then [] else [0])) :=
  ⟨by decide,
    decode_encode_tail_characterization rangeWordlists [5] MnemonicLanguage.English (by decide)⟩
